import Mathlib

/-!
# Verification of the comment-template tree building, capping, rendering, and
# the `useEntityRecord` status logic

Shallow embedding of:
* the flat-comment-list to tree conversion (`convertToTree`, modelled from the
  spec, §4.1, since `util.js` is not part of the excerpt),
* the comment-template edit component (`CommentTemplateEdit`): the `perPage`
  defaulting, the root-level cap (`slice(0, perPage)`), and the
  spinner / no-results / list rendering branches,
* the recursive renderer (`CommentsList` / `CommentTemplateInnerBlocks`):
  which node renders in editable form versus as a preview,
* `useEntityRecord`'s four-state status and `isMissing` computation.
-/

/-- A flat comment record as delivered by the data source.  `id` and
`parentId` are the fields relevant to tree shape; `payload` stands for the
opaque content fields (author, content, date). `parentId = 0` is the
sentinel for a top-level comment. -/
structure CommentRecord where
  id : Nat
  parentId : Nat
  payload : Nat
deriving DecidableEq, Repr

/-- A node of the comment forest: one record plus its ordered children. -/
inductive TreeNode where
  | mk (record : CommentRecord) (children : List TreeNode)
deriving Repr

def TreeNode.record : TreeNode → CommentRecord
  | .mk r _ => r

def TreeNode.children : TreeNode → List TreeNode
  | .mk _ cs => cs

mutual

/-- Boolean structural equality of tree nodes (record and children). -/
def TreeNode.eqb : TreeNode → TreeNode → Bool
  | .mk r cs, .mk s ds => r == s && TreeNode.eqbList cs ds

/-- Boolean structural equality of forests, pointwise. -/
def TreeNode.eqbList : List TreeNode → List TreeNode → Bool
  | [], [] => true
  | c :: cs, d :: ds => TreeNode.eqb c d && TreeNode.eqbList cs ds
  | _, _ => false

end

mutual

theorem TreeNode.eqb_iff : ∀ a b : TreeNode, TreeNode.eqb a b = true ↔ a = b
  | .mk r cs, .mk s ds => by
    simp only [TreeNode.eqb, Bool.and_eq_true, beq_iff_eq, TreeNode.mk.injEq]
    exact and_congr Iff.rfl (TreeNode.eqbList_iff cs ds)

theorem TreeNode.eqbList_iff :
    ∀ cs ds : List TreeNode, TreeNode.eqbList cs ds = true ↔ cs = ds
  | [], [] => by simp [TreeNode.eqbList]
  | [], _ :: _ => by simp [TreeNode.eqbList]
  | _ :: _, [] => by simp [TreeNode.eqbList]
  | c :: cs, d :: ds => by
    simp only [TreeNode.eqbList, Bool.and_eq_true, List.cons.injEq]
    exact and_congr (TreeNode.eqb_iff c d) (TreeNode.eqbList_iff cs ds)

end

instance : DecidableEq TreeNode :=
  fun a b => decidable_of_iff (TreeNode.eqb a b = true) (TreeNode.eqb_iff a b)

/-- Does some record in `data` carry identifier `i`? (the id → wrapper index
of the tree builder, membership view). -/
def hasId (data : List CommentRecord) (i : Nat) : Bool :=
  data.any (fun r => r.id == i)

/-- Modelled from the spec: the root condition of the tree builder (§4.1).
A record becomes a root when its `parentId` is the top-level sentinel 0
(§3), when it is self-referential (`parentId == id`, treated as "parent not
found" per §4.1 edge cases), or when no record of the input carries its
`parentId`. -/
def isRootRec (data : List CommentRecord) (r : CommentRecord) : Bool :=
  r.parentId == 0 || r.parentId == r.id || !(hasId data r.parentId)

/-- Modelled from the spec: the identifier index of the tree builder maps
each id to one wrapper, with "last write wins" on duplicate ids (§4.1).
`tableGetId data i dflt` is the record stored under `i` (the last record
with that id), or `dflt` when `i` is absent. -/
def tableGetId (data : List CommentRecord) (i : Nat) (dflt : CommentRecord) :
    CommentRecord :=
  (data.filter (fun r => r.id == i)).getLastD dflt

/-- The wrapper the index stores for `c`'s own id. -/
def tableGet (data : List CommentRecord) (c : CommentRecord) : CommentRecord :=
  tableGetId data c.id c

/-- The record stored under `c.parentId` (c's parent wrapper), `c` itself
when absent. -/
def parentRec (data : List CommentRecord) (c : CommentRecord) : CommentRecord :=
  tableGetId data c.parentId c

/-- Modelled from the spec: the records attached as children of the wrapper
with id `i`, in input order (§4.1 step 2: every non-root record is appended
to its parent wrapper's children in the single pass over input order). -/
def attachedTo (data : List CommentRecord) (i : Nat) : List CommentRecord :=
  data.filter (fun c => !isRootRec data c && c.parentId == i)

/-- Modelled from the spec: materialize the wrapper of record `r` as a tree.
The children of a wrapper are the records attached to its id, each
materialized through the index (`tableGet`).  `fuel` bounds the unfolding
depth; `data.length` suffices whenever the parent links are acyclic, which
is the only situation in which the rendered object graph of the original
mutable-wrapper algorithm is a finite tree at all. -/
def buildNode (data : List CommentRecord) : Nat → CommentRecord → TreeNode
  | 0, r => .mk r []
  | fuel + 1, r =>
      .mk r ((attachedTo data r.id).map
        (fun c => buildNode data fuel (tableGet data c)))

/-- Modelled from the spec: `buildTree` (§4.1).  Index every record by id,
then in input order attach each record to its parent wrapper or, failing
that, to the root list; return the root list.  The missing `util.js` is
summarized by the spec as this exact two-pass algorithm. -/
def convertToTree (data : List CommentRecord) : List TreeNode :=
  (data.filter (isRootRec data)).map
    (fun r => buildNode data data.length (tableGet data r))

example :
    convertToTree [⟨1, 0, 0⟩, ⟨2, 1, 0⟩, ⟨3, 0, 0⟩, ⟨4, 99, 0⟩] =
      [.mk ⟨1, 0, 0⟩ [.mk ⟨2, 1, 0⟩ []], .mk ⟨3, 0, 0⟩ [], .mk ⟨4, 99, 0⟩ []] := by
  decide

example : convertToTree [⟨1, 2, 0⟩, ⟨2, 1, 0⟩] = [] := by decide

/-- The root-level cap of the edit component:
`convertToTree( rawComments ).slice( 0, perPage )`. -/
def cap (forest : List TreeNode) (limit : Nat) : List TreeNode :=
  forest.take limit

/-- JS `perPage = perPage || 50`: the context value `'comments/perPage'` is
either absent (`none`, covering JS `undefined` / `null`) or a number; any
falsy number (0) is replaced by the default 50. -/
def effPerPage : Option Nat → Nat
  | none => 50
  | some n => if n = 0 then 50 else n

/-- The three render shapes `CommentTemplateEdit` can return: the spinner
paragraph (comments not yet resolved), the "No results found." paragraph,
or the comment list. -/
inductive RenderOutput where
  | spinner
  | noResults
  | list (comments : List TreeNode)
deriving DecidableEq, Repr

/-- The render of `CommentTemplateEdit`: `rawComments` is `none` while
`getEntityRecords` has not resolved (JS `null`) and `some raw` afterwards.
The flat list is converted to a tree, capped at `perPage` roots (default
50), and the spinner / empty / list branches follow the source order:
`if (!rawComments) return <Spinner/>;`
`if (!comments.length) return 'No results found.';` else the list. -/
def CommentTemplateEdit (rawComments : Option (List CommentRecord))
    (perPage : Option Nat) : RenderOutput :=
  let comments := cap (convertToTree (rawComments.getD [])) (effPerPage perPage)
  match rawComments with
  | none => .spinner
  | some _ => if comments.length = 0 then .noResults else .list comments

theorem listFlatMapCongr {α β : Type} {l : List α} {f g : α → List β}
    (h : ∀ a ∈ l, f a = g a) : l.flatMap f = l.flatMap g := by
  induction l with
  | nil => rfl
  | cons x xs ih =>
    simp only [List.flatMap_cons]
    rw [h x (List.mem_cons_self x xs), ih (fun a ha => h a (List.mem_cons_of_mem x ha))]

mutual

/-- Size measure of a tree (used as recursion fuel for traversals). -/
def TreeNode.weight : TreeNode → Nat
  | .mk _ cs => 1 + TreeNode.weightList cs

/-- Size measure of a forest. -/
def TreeNode.weightList : List TreeNode → Nat
  | [] => 0
  | c :: cs => 1 + TreeNode.weight c + TreeNode.weightList cs

end

theorem TreeNode.one_le_weight (t : TreeNode) : 1 ≤ t.weight := by
  cases t with
  | mk r cs => simp [TreeNode.weight]

theorem TreeNode.weightList_children_lt (t : TreeNode) :
    TreeNode.weightList t.children < t.weight := by
  cases t with
  | mk r cs => simp [TreeNode.weight, TreeNode.children]

theorem TreeNode.weight_lt_of_mem {c : TreeNode} :
    ∀ {cs : List TreeNode}, c ∈ cs → c.weight < TreeNode.weightList cs := by
  intro cs
  induction cs with
  | nil => intro h; cases h
  | cons d ds ih =>
    intro h
    rw [List.mem_cons] at h
    rcases h with h | h
    · subst h; simp only [TreeNode.weightList]; omega
    · have := ih h; simp only [TreeNode.weightList]; omega

theorem TreeNode.weightList_eq_zero {cs : List TreeNode}
    (h : TreeNode.weightList cs = 0) : cs = [] := by
  cases cs with
  | nil => rfl
  | cons c cs => simp only [TreeNode.weightList] at h; omega

/-- Fuel-bounded subtree enumeration: the node itself followed by the
subtrees of its children, preorder.  Structural in `fuel` so that concrete
forests evaluate definitionally. -/
def subF : Nat → TreeNode → List TreeNode
  | 0, _ => []
  | fuel + 1, t => t :: t.children.flatMap (subF fuel)

theorem subF_stable : ∀ fuel g t, t.weight ≤ fuel → t.weight ≤ g →
    subF fuel t = subF g t := by
  intro fuel
  induction fuel with
  | zero => intro g t ht; exact absurd ht (by have := t.one_le_weight; omega)
  | succ f ih =>
    intro g t ht hg
    match g, hg with
    | g + 1, hg =>
      simp only [subF, List.cons.injEq, true_and]
      apply listFlatMapCongr
      intro c hc
      have h1 : c.weight < TreeNode.weightList t.children :=
        TreeNode.weight_lt_of_mem hc
      have h2 : TreeNode.weightList t.children < t.weight :=
        t.weightList_children_lt
      exact ih g c (by omega) (by omega)
    | 0, hg => exact absurd hg (by have := t.one_le_weight; omega)

/-- All nodes of the subtree rooted at `t`, in document (preorder) order. -/
def TreeNode.sub (t : TreeNode) : List TreeNode := subF t.weight t

theorem TreeNode.sub_unfold (t : TreeNode) :
    t.sub = t :: t.children.flatMap TreeNode.sub := by
  have hpos := t.one_le_weight
  have hd : t.weight = (t.weight - 1) + 1 := by omega
  rw [TreeNode.sub, hd]
  simp only [subF, List.cons.injEq, true_and]
  apply listFlatMapCongr
  intro c hc
  have h1 : c.weight < TreeNode.weightList t.children := TreeNode.weight_lt_of_mem hc
  have h2 : TreeNode.weightList t.children < t.weight := t.weightList_children_lt
  exact subF_stable _ _ c (by omega) (by omega)

/-- All nodes of a forest, in document order. -/
def allNodes (cs : List TreeNode) : List TreeNode :=
  cs.flatMap TreeNode.sub

/-- Fuel-bounded render of a forest.  Each sibling list renders its members
in order; a member renders in editable form (`true`) exactly when it is
JS-`===` to `activeComment || firstComment`, where `firstComment` is the
head of the *current* sibling list (`comments[ 0 ]` passed by
`CommentsList` to each `CommentTemplateInnerBlocks`); the member's children
are then rendered as a nested list regardless of its own state. -/
def renderForestF (a : Option TreeNode) : Nat → List TreeNode → List (TreeNode × Bool)
  | 0, _ => []
  | fuel + 1, cs =>
      cs.flatMap (fun c =>
        (c, decide (c = a.getD (cs.headD c))) :: renderForestF a fuel c.children)

theorem renderForestF_stable (a : Option TreeNode) :
    ∀ fuel g cs, TreeNode.weightList cs ≤ fuel → TreeNode.weightList cs ≤ g →
      renderForestF a fuel cs = renderForestF a g cs := by
  intro fuel
  induction fuel with
  | zero =>
    intro g cs h _
    have hnil : cs = [] := TreeNode.weightList_eq_zero (by omega)
    subst hnil
    cases g <;> simp [renderForestF]
  | succ f ih =>
    intro g cs h hg
    match g with
    | 0 =>
      have hnil : cs = [] := TreeNode.weightList_eq_zero (by omega)
      subst hnil
      simp [renderForestF]
    | g + 1 =>
      simp only [renderForestF]
      apply listFlatMapCongr
      intro c hc
      have h1 : c.weight < TreeNode.weightList cs := TreeNode.weight_lt_of_mem hc
      have h2 : TreeNode.weightList c.children < c.weight := c.weightList_children_lt
      rw [ih g c.children (by omega) (by omega)]

/-- The rendered states of a forest under selection `a` (`none` while
`activeComment` is unset), in document order: each node paired with `true`
when it renders in editable form and `false` when it renders as a preview. -/
def renderForest (a : Option TreeNode) (cs : List TreeNode) : List (TreeNode × Bool) :=
  renderForestF a (TreeNode.weightList cs) cs

theorem renderForest_unfold (a : Option TreeNode) (cs : List TreeNode) :
    renderForest a cs =
      cs.flatMap (fun c =>
        (c, decide (c = a.getD (cs.headD c))) :: renderForest a c.children) := by
  cases cs with
  | nil => simp [renderForest, TreeNode.weightList, renderForestF]
  | cons c0 cs0 =>
    rw [renderForest]
    have hd : TreeNode.weightList (c0 :: cs0) =
        (TreeNode.weightList (c0 :: cs0) - 1) + 1 := by
      simp only [TreeNode.weightList]; omega
    rw [hd]
    simp only [renderForestF]
    apply listFlatMapCongr
    intro c hc
    have h1 : c.weight < TreeNode.weightList (c0 :: cs0) := TreeNode.weight_lt_of_mem hc
    have h2 : TreeNode.weightList c.children < c.weight := c.weightList_children_lt
    simp only [renderForest]
    rw [renderForestF_stable a (TreeNode.weightList (c0 :: cs0) - 1)
      (TreeNode.weightList c.children) c.children (by omega) (le_refl _)]

/-- Fuel-bounded enumeration of the sibling-list heads of a forest: the
first element of the forest itself and, recursively, the first element of
every node's children list. -/
def sibHeadsF : Nat → List TreeNode → List TreeNode
  | 0, _ => []
  | fuel + 1, cs => cs.head?.toList ++ cs.flatMap (fun c => sibHeadsF fuel c.children)

theorem sibHeadsF_stable :
    ∀ fuel g cs, TreeNode.weightList cs ≤ fuel → TreeNode.weightList cs ≤ g →
      sibHeadsF fuel cs = sibHeadsF g cs := by
  intro fuel
  induction fuel with
  | zero =>
    intro g cs h _
    have hnil : cs = [] := TreeNode.weightList_eq_zero (by omega)
    subst hnil
    cases g <;> simp [sibHeadsF]
  | succ f ih =>
    intro g cs h hg
    match g with
    | 0 =>
      have hnil : cs = [] := TreeNode.weightList_eq_zero (by omega)
      subst hnil
      simp [sibHeadsF]
    | g + 1 =>
      simp only [sibHeadsF, List.append_cancel_left_eq]
      apply listFlatMapCongr
      intro c hc
      have h1 : c.weight < TreeNode.weightList cs := TreeNode.weight_lt_of_mem hc
      have h2 : TreeNode.weightList c.children < c.weight := c.weightList_children_lt
      exact ih g c.children (by omega) (by omega)

/-- The nodes that head a sibling list of the forest: the first root and
the first child of every node that has children. -/
def sibHeads (cs : List TreeNode) : List TreeNode :=
  sibHeadsF (TreeNode.weightList cs) cs

theorem sibHeads_unfold (cs : List TreeNode) :
    sibHeads cs = cs.head?.toList ++ cs.flatMap (fun c => sibHeads c.children) := by
  cases cs with
  | nil => simp [sibHeads, TreeNode.weightList, sibHeadsF]
  | cons c0 cs0 =>
    rw [sibHeads]
    have hd : TreeNode.weightList (c0 :: cs0) =
        (TreeNode.weightList (c0 :: cs0) - 1) + 1 := by
      simp only [TreeNode.weightList]; omega
    rw [hd]
    simp only [sibHeadsF, List.append_cancel_left_eq]
    apply listFlatMapCongr
    intro c hc
    have h1 : c.weight < TreeNode.weightList (c0 :: cs0) := TreeNode.weight_lt_of_mem hc
    have h2 : TreeNode.weightList c.children < c.weight := c.weightList_children_lt
    exact sibHeadsF_stable _ _ c.children (by omega) (by omega)

theorem mem_getLastD {α : Type} :
    ∀ {l : List α}, l ≠ [] → ∀ d : α, l.getLastD d ∈ l := by
  intro l
  induction l with
  | nil => intro h; exact absurd rfl h
  | cons a as ih =>
    intro _ d
    rw [List.getLastD_cons]
    cases as with
    | nil => simp [List.getLastD]
    | cons b bs => exact List.mem_cons_of_mem a (ih (by simp) a)

/-- When some record carries id `i`, the index lookup returns a record of
`data` whose id is `i` (the last such record: "last write wins"). -/
theorem tableGetId_spec (data : List CommentRecord) (i : Nat) (dflt : CommentRecord)
    (h : hasId data i = true) :
    tableGetId data i dflt ∈ data ∧ (tableGetId data i dflt).id = i := by
  rw [hasId, List.any_eq_true] at h
  obtain ⟨r, hr, hri⟩ := h
  have hne : data.filter (fun r => r.id == i) ≠ [] := by
    intro hnil
    have hmemf : r ∈ data.filter (fun r => r.id == i) :=
      List.mem_filter.mpr ⟨hr, hri⟩
    rw [hnil] at hmemf
    cases hmemf
  have hmem : tableGetId data i dflt ∈ data.filter (fun r => r.id == i) :=
    mem_getLastD hne dflt
  have := List.mem_filter.mp hmem
  exact ⟨this.1, by have := this.2; simpa using this⟩

theorem buildNode_record (data : List CommentRecord) :
    ∀ (fuel : Nat) (r : CommentRecord), (buildNode data fuel r).record = r := by
  intro fuel r
  cases fuel <;> rfl

/-- C4: a record whose `parentId` matches no record's id in the input —
including a self-referential record with `parentId = id` — appears as a
root of the output forest (a root node carrying its id exists in the
output).  The builder is a total function, so it can neither raise an
error nor loop on such malformed linkage. -/
theorem orphanBecomesRoot (data : List CommentRecord) (c : CommentRecord)
    (hc : c ∈ data)
    (hp : c.parentId = c.id ∨ ∀ r ∈ data, r.id ≠ c.parentId) :
    ∃ t ∈ convertToTree data, t.record.id = c.id := by
  have hroot : isRootRec data c = true := by
    rcases hp with hp | hp
    · simp [isRootRec, hp]
    · have hno : hasId data c.parentId = false := by
        rw [hasId, List.any_eq_false]
        intro r hr
        simpa using hp r hr
      simp [isRootRec, hno]
  have hfilter : c ∈ data.filter (isRootRec data) := List.mem_filter.mpr ⟨hc, hroot⟩
  refine ⟨buildNode data data.length (tableGet data c), ?_, ?_⟩
  · exact List.mem_map_of_mem _ hfilter
  · rw [buildNode_record]
    have hid : hasId data c.id = true := by
      rw [hasId, List.any_eq_true]
      exact ⟨c, hc, by simp⟩
    exact (tableGetId_spec data c.id c hid).2

/-- Witness for C4: the self-referential record `{id := 1, parentId := 1}`
appears as a root. -/
theorem orphanBecomesRootW :
    ∃ t ∈ convertToTree [⟨1, 1, 5⟩], t.record.id = 1 :=
  orphanBecomesRoot [⟨1, 1, 5⟩] ⟨1, 1, 5⟩ (by decide) (Or.inl rfl)

/-- The four resolution states of `useEntityRecord`
(`IDLE, RESOLVING, SUCCESS, ERROR` from `./constants`). -/
inductive Status where
  | idle
  | resolving
  | success
  | error
deriving DecidableEq, Repr

/-- The status computation of `useEntityRecord`, translated from the
source's `if/else` chain over the externally computed flags (`data` is the
entity record, `none` when absent, so the JS truthiness test `if (data)`
is `isSome`). -/
def statusOf (isResolving hasResolved : Bool) (data : Option α) : Status :=
  if isResolving then .resolving
  else if hasResolved then
    (if data.isSome then .success else .error)
  else .idle

/-- Modelled from the spec: the prioritized case read of the status —
RESOLVING when `isResolving`; otherwise SUCCESS when `hasResolved` and the
data is present; otherwise ERROR when `hasResolved` and the data is absent;
otherwise IDLE.  Stated separately from `statusOf` so the source's `if`
chain can be compared against the spec's wording. -/
def statusSpec (isResolving hasResolved : Bool) (data : Option α) : Status :=
  if isResolving then .resolving
  else if hasResolved && data.isSome then .success
  else if hasResolved && data.isNone then .error
  else .idle

/-- The object returned by `useEntityRecord` (the fields the claims are
about; `editedRecord` and `hasEdits` are passed through unchanged from the
selector and do not interact with the status logic). -/
structure EntityRecordResult (α : Type) where
  status : Status
  record : Option α
  editedRecord : Option α
  hasEdits : Option Bool
  isMissing : Bool
  isResolving : Bool
  hasResolved : Bool
deriving Repr

/-- The hook `useEntityRecord`, translated from the source: `isMissing` is
`recordResponse.hasResolved && ! recordResponse.data`, and `status` is the
`if/else` chain over `isResolving` / `hasResolved` / `data`. -/
def useEntityRecord (isResolving hasResolved : Bool) (data : Option α)
    (editedRecord : Option α) (hasEdits : Option Bool) :
    EntityRecordResult α :=
  { status := statusOf isResolving hasResolved data
    record := data
    editedRecord := editedRecord
    hasEdits := hasEdits
    isMissing := hasResolved && data.isNone
    isResolving := isResolving
    hasResolved := hasResolved }

/-- C3: capping a forest keeps exactly `min n (number of roots)` roots,
namely the first `n` roots in order, and each retained root (hence its
whole subtree) is unchanged. -/
theorem capKeepsPrefixOfRoots (forest : List TreeNode) (n : Nat) :
    (cap forest n).length = min n forest.length ∧
    ∀ i (h1 : i < (cap forest n).length) (h2 : i < forest.length),
      (cap forest n).get ⟨i, h1⟩ = forest.get ⟨i, h2⟩ := by
  constructor
  · simp [cap]
  · intro i h1 h2
    simp only [cap, List.get_eq_getElem, List.getElem_take]

/-- Witness for C3: capping a two-root forest at 1 keeps exactly the first
root untouched. -/
theorem capKeepsPrefixOfRootsW :
    (cap [TreeNode.mk ⟨1, 0, 0⟩ [], TreeNode.mk ⟨2, 0, 0⟩ []] 1).length =
      min 1 [TreeNode.mk ⟨1, 0, 0⟩ [], TreeNode.mk ⟨2, 0, 0⟩ []].length ∧
    (cap [TreeNode.mk ⟨1, 0, 0⟩ [], TreeNode.mk ⟨2, 0, 0⟩ []] 1).get ⟨0, by decide⟩ =
      [TreeNode.mk ⟨1, 0, 0⟩ [], TreeNode.mk ⟨2, 0, 0⟩ []].get ⟨0, by decide⟩ := by
  refine ⟨(capKeepsPrefixOfRoots _ 1).1, ?_⟩
  exact (capKeepsPrefixOfRoots [TreeNode.mk ⟨1, 0, 0⟩ [], TreeNode.mk ⟨2, 0, 0⟩ []] 1).2
    0 (by decide) (by decide)

/-- C6: the component distinguishes absent input (spinner) from present
input whose capped forest is empty ("No results found."), and the tree
builder maps the empty sequence to the empty forest. -/
theorem emptyVsAbsentInput :
    (∀ p, CommentTemplateEdit none p = RenderOutput.spinner) ∧
    (∀ raw p, cap (convertToTree raw) (effPerPage p) = [] →
      CommentTemplateEdit (some raw) p = RenderOutput.noResults) ∧
    convertToTree [] = [] := by
  refine ⟨fun p => rfl, fun raw p h => ?_, rfl⟩
  simp [CommentTemplateEdit, h]

/-- Witness for C6: a present-but-empty comment list renders the explicit
empty result, not the spinner. -/
theorem emptyVsAbsentInputW :
    CommentTemplateEdit (some []) none = RenderOutput.noResults :=
  emptyVsAbsentInput.2.1 [] none rfl

/-- C7: with the `'comments/perPage'` context value absent, the effective
limit is the documented default 50, and any rendered list has exactly
`min 50 (number of roots)` entries (hence at most 50 root nodes). -/
theorem perPageAbsentDefaultsTo50 (raw : List CommentRecord) (cs : List TreeNode)
    (h : CommentTemplateEdit (some raw) none = RenderOutput.list cs) :
    effPerPage none = 50 ∧
    cs = cap (convertToTree raw) 50 ∧
    cs.length = min 50 (convertToTree raw).length ∧
    cs.length ≤ 50 := by
  have hcs : cs = cap (convertToTree raw) 50 := by
    rw [CommentTemplateEdit] at h
    simp only [effPerPage] at h
    split at h
    · cases h
    · cases h
      rfl
  refine ⟨rfl, hcs, ?_, ?_⟩
  · rw [hcs]; simp [cap]
  · rw [hcs]
    simp only [cap, List.length_take]
    omega

/-- Witness for C7: a one-root list renders with `min 50 1 = 1` root. -/
theorem perPageAbsentDefaultsTo50W :
    effPerPage none = 50 ∧
    [TreeNode.mk ⟨1, 0, 0⟩ []] = cap (convertToTree [⟨1, 0, 0⟩]) 50 ∧
    [TreeNode.mk ⟨1, 0, 0⟩ []].length = min 50 (convertToTree [⟨1, 0, 0⟩]).length ∧
    [TreeNode.mk ⟨1, 0, 0⟩ []].length ≤ 50 :=
  perPageAbsentDefaultsTo50 [⟨1, 0, 0⟩] [TreeNode.mk ⟨1, 0, 0⟩ []] (by decide)

/-- C10: a supplied `perPage` of 0 (JS falsy) is treated exactly like an
absent one — the default cap 50 applies and the render is identical — so
`perPage = 0` does not produce an empty rendering when comments exist. -/
theorem perPageZeroActsAsAbsent :
    effPerPage (some 0) = effPerPage none ∧
    (∀ raw, CommentTemplateEdit raw (some 0) = CommentTemplateEdit raw none) ∧
    (∀ l, convertToTree l ≠ [] →
      CommentTemplateEdit (some l) (some 0) ≠ RenderOutput.noResults ∧
      CommentTemplateEdit (some l) (some 0) ≠ RenderOutput.spinner) := by
  refine ⟨rfl, fun raw => rfl, fun l h => ?_⟩
  have hlen : (cap (convertToTree l) (effPerPage (some 0))).length ≠ 0 := by
    have heff : effPerPage (some 0) = 50 := rfl
    rw [heff]
    simp only [cap, List.length_take]
    have hne : (convertToTree l).length ≠ 0 := by
      intro h0
      exact h (List.eq_nil_of_length_eq_zero h0)
    omega
  constructor
  · rw [CommentTemplateEdit]
    simp only [Option.getD_some]
    rw [if_neg hlen]
    intro hx
    cases hx
  · rw [CommentTemplateEdit]
    simp only [Option.getD_some]
    rw [if_neg hlen]
    intro hx
    cases hx

/-- Witness for C10: one comment, `perPage = 0`: the render equals the
absent-parameter render and is not the empty result. -/
theorem perPageZeroActsAsAbsentW :
    CommentTemplateEdit (some [⟨1, 0, 0⟩]) (some 0) =
      CommentTemplateEdit (some [⟨1, 0, 0⟩]) none ∧
    CommentTemplateEdit (some [⟨1, 0, 0⟩]) (some 0) ≠ RenderOutput.noResults :=
  ⟨perPageZeroActsAsAbsent.2.1 (some [⟨1, 0, 0⟩]),
    (perPageZeroActsAsAbsent.2.2 [⟨1, 0, 0⟩] (by decide)).1⟩

/-- C8: `useEntityRecord`'s status is one of the four values
IDLE / RESOLVING / SUCCESS / ERROR and is the pure case read of the flags:
RESOLVING when `isResolving`; otherwise SUCCESS when `hasResolved` with
data present; otherwise ERROR when `hasResolved` with data absent;
otherwise IDLE (`statusSpec` states the spec's wording; the equation
compares the source's `if` chain against it). -/
theorem statusFourStateRead {α : Type} (ir hr : Bool) (d e : Option α)
    (he : Option Bool) :
    ((useEntityRecord ir hr d e he).status = Status.resolving ∨
      (useEntityRecord ir hr d e he).status = Status.success ∨
      (useEntityRecord ir hr d e he).status = Status.error ∨
      (useEntityRecord ir hr d e he).status = Status.idle) ∧
    (useEntityRecord ir hr d e he).status = statusSpec ir hr d := by
  cases ir <;> cases hr <;> cases d <;>
    simp [useEntityRecord, statusOf, statusSpec]

/-- C9: `isMissing` is true exactly when resolution finished and the data
is absent, and (once resolution is no longer running) `isMissing` forces
status ERROR. -/
theorem isMissingIffResolvedAbsent {α : Type} (ir hr : Bool) (d e : Option α)
    (he : Option Bool) :
    ((useEntityRecord ir hr d e he).isMissing = true ↔ hr = true ∧ d = none) ∧
    (ir = false → (useEntityRecord ir hr d e he).isMissing = true →
      (useEntityRecord ir hr d e he).status = Status.error) := by
  cases ir <;> cases hr <;> cases d <;>
    simp [useEntityRecord, statusOf]

/-- Witness for C9: resolution finished, record absent — `isMissing` holds
and the status is ERROR. -/
theorem isMissingIffResolvedAbsentW :
    (useEntityRecord false true (none : Option Nat) none none).isMissing = true ∧
    (useEntityRecord false true (none : Option Nat) none none).status = Status.error := by
  have h := isMissingIffResolvedAbsent false true (none : Option Nat) none none
  exact ⟨h.1.mpr ⟨rfl, rfl⟩, h.2 rfl (h.1.mpr ⟨rfl, rfl⟩)⟩

theorem allNodes_unfold (cs : List TreeNode) :
    allNodes cs = cs.flatMap (fun c => c :: allNodes c.children) := by
  apply listFlatMapCongr
  intro c _
  rw [TreeNode.sub_unfold]
  rfl

theorem mem_allNodes_self {c : TreeNode} {cs : List TreeNode} (hc : c ∈ cs) :
    c ∈ allNodes cs := by
  rw [allNodes_unfold]
  exact List.mem_flatMap.mpr ⟨c, hc, List.mem_cons_self _ _⟩

theorem mem_sub_of_mem_children {t c : TreeNode} (ht : t ∈ allNodes c.children) :
    t ∈ c.sub := by
  rw [TreeNode.sub_unfold]
  exact List.mem_cons_of_mem _ ht

theorem mem_allNodes_of_child {t c : TreeNode} {cs : List TreeNode}
    (hc : c ∈ cs) (ht : t ∈ allNodes c.children) : t ∈ allNodes cs :=
  List.mem_flatMap.mpr ⟨c, hc, mem_sub_of_mem_children ht⟩

theorem renderForest_fst_aux (a : Option TreeNode) :
    ∀ (n : Nat) (cs : List TreeNode), TreeNode.weightList cs ≤ n →
      (renderForest a cs).map Prod.fst = allNodes cs := by
  intro n
  induction n with
  | zero =>
    intro cs h
    have hnil : cs = [] := TreeNode.weightList_eq_zero (by omega)
    subst hnil
    rfl
  | succ m ih =>
    intro cs h
    rw [renderForest_unfold, allNodes_unfold, List.map_flatMap]
    apply listFlatMapCongr
    intro c hc
    have h1 : c.weight < TreeNode.weightList cs := TreeNode.weight_lt_of_mem hc
    have h2 : TreeNode.weightList c.children < c.weight := c.weightList_children_lt
    simp only [List.map_cons]
    rw [ih c.children (by omega)]

theorem renderForest_fst (a : Option TreeNode) (cs : List TreeNode) :
    (renderForest a cs).map Prod.fst = allNodes cs :=
  renderForest_fst_aux a (TreeNode.weightList cs) cs (le_refl _)

theorem fst_mem_allNodes {a : Option TreeNode} {cs : List TreeNode}
    {p : TreeNode × Bool} (hp : p ∈ renderForest a cs) : p.1 ∈ allNodes cs := by
  rw [← renderForest_fst a cs]
  exact List.mem_map_of_mem Prod.fst hp

theorem renderForest_some_aux (a : TreeNode) :
    ∀ (n : Nat) (cs : List TreeNode), TreeNode.weightList cs ≤ n →
      renderForest (some a) cs =
        (allNodes cs).map (fun t => (t, decide (t = a))) := by
  intro n
  induction n with
  | zero =>
    intro cs h
    have hnil : cs = [] := TreeNode.weightList_eq_zero (by omega)
    subst hnil
    rfl
  | succ m ih =>
    intro cs h
    rw [renderForest_unfold, allNodes_unfold, List.map_flatMap]
    apply listFlatMapCongr
    intro c hc
    have h1 : c.weight < TreeNode.weightList cs := TreeNode.weight_lt_of_mem hc
    have h2 : TreeNode.weightList c.children < c.weight := c.weightList_children_lt
    simp only [List.map_cons, Option.getD_some]
    rw [ih c.children (by omega)]

theorem renderForest_some (a : TreeNode) (cs : List TreeNode) :
    renderForest (some a) cs = (allNodes cs).map (fun t => (t, decide (t = a))) :=
  renderForest_some_aux a (TreeNode.weightList cs) cs (le_refl _)

theorem nodupFilterEq {α : Type} [DecidableEq α] {l : List α} {a : α}
    (h : l.Nodup) (ha : a ∈ l) : l.filter (fun x => decide (x = a)) = [a] := by
  induction l with
  | nil => cases ha
  | cons x xs ih =>
    rw [List.nodup_cons] at h
    rw [List.mem_cons] at ha
    rcases ha with ha | ha
    · rw [← ha] at h
      rw [← ha, List.filter_cons_of_pos (by simp)]
      have hrest : xs.filter (fun y => decide (y = a)) = [] := by
        rw [List.filter_eq_nil_iff]
        intro y hy
        simp only [decide_eq_true_eq]
        intro hyx
        exact h.1 (hyx ▸ hy)
      rw [hrest]
    · have hxa : x ≠ a := by
        intro hxa
        exact h.1 (hxa ▸ ha)
      rw [List.filter_cons_of_neg (by simpa using hxa)]
      exact ih h.2 ha

/-- C1 (amended): once an active comment is explicitly selected, a node
renders in editable form exactly when it is that comment, so on a forest
whose nodes are pairwise distinct exactly one node is editable; firing the
activation signal on `b` (i.e. `setActiveComment(b)`) while `a` is active
makes `b` the unique editable node, `a` a preview, and leaves the rendered
entry of every node other than `a` and `b` unchanged.  (As stated over
*every* selection state the claim fails: with `activeComment` unset the
head of every sibling list renders editable, see the counterexample.) -/
theorem activationSingleActive (cs : List TreeNode) (a b : TreeNode)
    (hnd : (allNodes cs).Nodup) (ha : a ∈ allNodes cs) (hb : b ∈ allNodes cs) :
    (∀ p ∈ renderForest (some a) cs, p.2 = true ↔ p.1 = a) ∧
    (∀ p ∈ renderForest (some b) cs, p.2 = true ↔ p.1 = b) ∧
    ((renderForest (some a) cs).filter (fun p => p.2)).map Prod.fst = [a] ∧
    ((renderForest (some b) cs).filter (fun p => p.2)).map Prod.fst = [b] ∧
    (∀ (i : Nat) (t : TreeNode), (allNodes cs)[i]? = some t → t ≠ a → t ≠ b →
      (renderForest (some a) cs)[i]? = (renderForest (some b) cs)[i]?) := by
  have hmem : ∀ x : TreeNode, ∀ p ∈ renderForest (some x) cs,
      p.2 = true ↔ p.1 = x := by
    intro x p hp
    rw [renderForest_some] at hp
    obtain ⟨t, _, hpt⟩ := List.mem_map.mp hp
    rw [← hpt]
    simp
  have hfilter : ∀ x : TreeNode, x ∈ allNodes cs →
      ((renderForest (some x) cs).filter (fun p => p.2)).map Prod.fst = [x] := by
    intro x hx
    rw [renderForest_some, List.filter_map]
    have hcomp : ((fun p : TreeNode × Bool => p.2) ∘ fun t => (t, decide (t = x)))
        = fun t => decide (t = x) := rfl
    rw [hcomp, nodupFilterEq hnd hx]
    rfl
  refine ⟨hmem a, hmem b, hfilter a ha, hfilter b hb, ?_⟩
  intro i t ht hta htb
  rw [renderForest_some, renderForest_some, List.getElem?_map, List.getElem?_map, ht]
  simp [hta, htb]

/-- Witness for C1: a two-root forest; selecting either root makes it the
unique editable node. -/
theorem activationSingleActiveW :
    ((renderForest (some (TreeNode.mk ⟨1, 0, 0⟩ []))
        [TreeNode.mk ⟨1, 0, 0⟩ [], TreeNode.mk ⟨2, 0, 0⟩ []]).filter
        (fun p => p.2)).map Prod.fst = [TreeNode.mk ⟨1, 0, 0⟩ []] ∧
    ((renderForest (some (TreeNode.mk ⟨2, 0, 0⟩ []))
        [TreeNode.mk ⟨1, 0, 0⟩ [], TreeNode.mk ⟨2, 0, 0⟩ []]).filter
        (fun p => p.2)).map Prod.fst = [TreeNode.mk ⟨2, 0, 0⟩ []] := by
  have h := activationSingleActive
    [TreeNode.mk ⟨1, 0, 0⟩ [], TreeNode.mk ⟨2, 0, 0⟩ []]
    (TreeNode.mk ⟨1, 0, 0⟩ []) (TreeNode.mk ⟨2, 0, 0⟩ [])
    (by decide) (by decide) (by decide)
  exact ⟨h.2.2.1, h.2.2.2.1⟩

/-- Counterexample to C1 as stated: in the selection state with
`activeComment` unset, a root with one child renders *two* nodes in
editable form (the root heads the root list and the child heads its own
sibling list), so "at most one node is active for every selection state"
is false. -/
theorem activationSingleActiveCex :
    ((renderForest none [TreeNode.mk ⟨1, 0, 0⟩ [TreeNode.mk ⟨2, 1, 0⟩ []]]).filter
        (fun p => p.2)).length = 2 ∧
    ¬ ((renderForest none [TreeNode.mk ⟨1, 0, 0⟩ [TreeNode.mk ⟨2, 1, 0⟩ []]]).filter
        (fun p => p.2)).length ≤ 1 := by
  exact ⟨by decide, by decide⟩

theorem sub_nodup_of_allNodes {cs : List TreeNode} (hnd : (allNodes cs).Nodup) :
    ∀ c ∈ cs, c ∉ allNodes c.children ∧ (allNodes c.children).Nodup := by
  intro c hc
  have h : c.sub.Nodup := (List.nodup_flatMap.mp hnd).1 c hc
  rw [TreeNode.sub_unfold] at h
  rw [List.nodup_cons] at h
  exact ⟨h.1, h.2⟩

theorem sub_disjoint_of_allNodes {cs : List TreeNode} (hnd : (allNodes cs).Nodup) :
    ∀ c ∈ cs, ∀ d ∈ cs, c ≠ d → ∀ t, t ∈ c.sub → t ∉ d.sub := by
  have hpw := (List.nodup_flatMap.mp hnd).2
  intro c hc d hd hne t htc htd
  have hsymm : Symmetric (List.Disjoint on TreeNode.sub) := fun x y h => h.symm
  exact (List.Pairwise.forall hsymm hpw hc hd hne) htc htd

theorem not_mem_children_of_mem {cs : List TreeNode} (hnd : (allNodes cs).Nodup) :
    ∀ c ∈ cs, ∀ d ∈ cs, c ∉ allNodes d.children := by
  intro c hc d hd hmem
  by_cases hcd : c = d
  · subst hcd
    exact (sub_nodup_of_allNodes hnd c hc).1 hmem
  · have hcsub : c ∈ c.sub := by
      rw [TreeNode.sub_unfold]
      exact List.mem_cons_self _ _
    exact sub_disjoint_of_allNodes hnd c hc d hd hcd c hcsub
      (mem_sub_of_mem_children hmem)

theorem sibHeads_subset_aux :
    ∀ (n : Nat) (cs : List TreeNode), TreeNode.weightList cs ≤ n →
      ∀ t ∈ sibHeads cs, t ∈ allNodes cs := by
  intro n
  induction n with
  | zero =>
    intro cs h t ht
    have hnil : cs = [] := TreeNode.weightList_eq_zero (by omega)
    subst hnil
    simp [sibHeads, TreeNode.weightList, sibHeadsF] at ht
  | succ m ih =>
    intro cs h t ht
    rw [sibHeads_unfold] at ht
    rcases List.mem_append.mp ht with ht | ht
    · cases cs with
      | nil => simp at ht
      | cons x xs =>
        simp only [List.head?_cons, Option.toList_some, List.mem_singleton] at ht
        subst ht
        exact mem_allNodes_self (List.mem_cons_self _ _)
    · obtain ⟨c, hc, htc⟩ := List.mem_flatMap.mp ht
      have h1 : c.weight < TreeNode.weightList cs := TreeNode.weight_lt_of_mem hc
      have h2 : TreeNode.weightList c.children < c.weight := c.weightList_children_lt
      exact mem_allNodes_of_child hc (ih c.children (by omega) t htc)

theorem sibHeads_subset {cs : List TreeNode} :
    ∀ t ∈ sibHeads cs, t ∈ allNodes cs :=
  sibHeads_subset_aux (TreeNode.weightList cs) cs (le_refl _)

theorem activeIsSibHead_aux :
    ∀ (n : Nat) (cs : List TreeNode), TreeNode.weightList cs ≤ n →
      ∀ p ∈ renderForest none cs, p.2 = true → p.1 ∈ sibHeads cs := by
  intro n
  induction n with
  | zero =>
    intro cs h p hp
    have hnil : cs = [] := TreeNode.weightList_eq_zero (by omega)
    subst hnil
    simp [renderForest, TreeNode.weightList, renderForestF] at hp
  | succ m ih =>
    intro cs h p hp htrue
    rw [renderForest_unfold] at hp
    obtain ⟨c, hc, hpc⟩ := List.mem_flatMap.mp hp
    have h1 : c.weight < TreeNode.weightList cs := TreeNode.weight_lt_of_mem hc
    have h2 : TreeNode.weightList c.children < c.weight := c.weightList_children_lt
    rw [sibHeads_unfold]
    rcases List.mem_cons.mp hpc with hpc | hpc
    · subst hpc
      simp only [Option.getD_none, decide_eq_true_eq] at htrue
      apply List.mem_append.mpr
      left
      cases cs with
      | nil => cases hc
      | cons x xs =>
        simp only [List.headD_cons] at htrue
        simp [htrue]
    · apply List.mem_append.mpr
      right
      exact List.mem_flatMap.mpr ⟨c, hc, ih c.children (by omega) p hpc htrue⟩

theorem headImpActive_aux :
    ∀ (n : Nat) (cs : List TreeNode), TreeNode.weightList cs ≤ n →
      (allNodes cs).Nodup →
      ∀ p ∈ renderForest none cs, p.1 ∈ sibHeads cs → p.2 = true := by
  intro n
  induction n with
  | zero =>
    intro cs h _ p hp
    have hnil : cs = [] := TreeNode.weightList_eq_zero (by omega)
    subst hnil
    simp [renderForest, TreeNode.weightList, renderForestF] at hp
  | succ m ih =>
    intro cs h hnd p hp hsib
    rw [renderForest_unfold] at hp
    obtain ⟨c, hc, hpc⟩ := List.mem_flatMap.mp hp
    have h1 : c.weight < TreeNode.weightList cs := TreeNode.weight_lt_of_mem hc
    have h2 : TreeNode.weightList c.children < c.weight := c.weightList_children_lt
    rw [sibHeads_unfold] at hsib
    rcases List.mem_cons.mp hpc with hpc | hpc
    · subst hpc
      simp only [Option.getD_none, decide_eq_true_eq]
      rcases List.mem_append.mp hsib with hsib | hsib
      · cases cs with
        | nil => cases hc
        | cons x xs =>
          simp only [List.head?_cons, Option.toList_some, List.mem_singleton] at hsib
          simp [List.headD_cons, hsib]
      · obtain ⟨d, hd, hsd⟩ := List.mem_flatMap.mp hsib
        have hmemd : c ∈ allNodes d.children :=
          sibHeads_subset_aux (TreeNode.weightList d.children) d.children
            (le_refl _) c hsd
        exact absurd hmemd (not_mem_children_of_mem hnd c hc d hd)
    · have hfst : p.1 ∈ allNodes c.children := fst_mem_allNodes hpc
      rcases List.mem_append.mp hsib with hsib | hsib
      · cases cs with
        | nil => cases hc
        | cons x xs =>
          simp only [List.head?_cons, Option.toList_some, List.mem_singleton] at hsib
          have hxmem : x ∈ x :: xs := List.mem_cons_self _ _
          rw [hsib] at hfst
          exact absurd hfst (not_mem_children_of_mem hnd x hxmem c hc)
      · obtain ⟨d, hd, hsd⟩ := List.mem_flatMap.mp hsib
        by_cases hdc : d = c
        · subst hdc
          exact ih d.children (by omega) (sub_nodup_of_allNodes hnd d hc).2
            p hpc hsd
        · have hfd : p.1 ∈ allNodes d.children :=
            sibHeads_subset_aux (TreeNode.weightList d.children) d.children
              (le_refl _) p.1 hsd
          have hsubc : p.1 ∈ c.sub := mem_sub_of_mem_children hfst
          have hsubd : p.1 ∈ d.sub := mem_sub_of_mem_children hfd
          exact absurd hsubd
            (sub_disjoint_of_allNodes hnd c hc d hd (fun hx => hdc hx.symm)
              p.1 hsubc)

/-- C2 (amended): with `activeComment` unset, the *first root* does render
in editable form — but it is not the only one: a node renders editable
exactly when it heads its sibling list (`firstComment` is `comments[ 0 ]`
of each recursive `CommentsList`, not of the root list), so the first
child of every node with children is editable too.  Stated for forests
whose nodes are pairwise distinct. -/
theorem defaultSelectionFirstOfEachList (cs : List TreeNode) (c0 : TreeNode)
    (rest : List TreeNode) (hcs : cs = c0 :: rest)
    (hnd : (allNodes cs).Nodup) :
    (renderForest none cs).head? = some (c0, true) ∧
    ∀ p ∈ renderForest none cs, (p.2 = true ↔ p.1 ∈ sibHeads cs) := by
  constructor
  · subst hcs
    rw [renderForest_unfold]
    simp [List.flatMap_cons]
  · intro p hp
    constructor
    · exact activeIsSibHead_aux (TreeNode.weightList cs) cs (le_refl _) p hp
    · exact headImpActive_aux (TreeNode.weightList cs) cs (le_refl _) hnd p hp

/-- Witness for C2: on a root with one child (all nodes distinct), the
first root is the first rendered entry and is editable. -/
theorem defaultSelectionFirstOfEachListW :
    (renderForest none [TreeNode.mk ⟨1, 0, 0⟩ [TreeNode.mk ⟨2, 1, 0⟩ []]]).head? =
      some (TreeNode.mk ⟨1, 0, 0⟩ [TreeNode.mk ⟨2, 1, 0⟩ []], true) :=
  (defaultSelectionFirstOfEachList
    [TreeNode.mk ⟨1, 0, 0⟩ [TreeNode.mk ⟨2, 1, 0⟩ []]]
    (TreeNode.mk ⟨1, 0, 0⟩ [TreeNode.mk ⟨2, 1, 0⟩ []]) [] rfl (by decide)).1

/-- Counterexample to C2 as stated: with `activeComment` unset on the
forest `[1 → [2]]`, the child node 2 also renders in editable form, so the
first root is *not* the only node rendered editable. -/
theorem defaultSelectionCex :
    ¬ (∀ p ∈ renderForest none [TreeNode.mk ⟨1, 0, 0⟩ [TreeNode.mk ⟨2, 1, 0⟩ []]],
        p.2 = true → p.1 = TreeNode.mk ⟨1, 0, 0⟩ [TreeNode.mk ⟨2, 1, 0⟩ []]) := by
  decide

/-- The records carried by the subtree rooted at `t`, preorder. -/
def treeRecords (t : TreeNode) : List CommentRecord :=
  t.sub.map TreeNode.record

/-- The records attached (as children) below any wrapper of `L`: one pass
of tree growth below the wrappers of `L`. -/
def childrenOf (data L : List CommentRecord) : List CommentRecord :=
  L.flatMap (fun r => attachedTo data r.id)

/-- Fuel-bounded reachability of the wrapper set `L` from record `c` by
climbing parent links: `c` is in `L`, or `c` is attached and its parent
wrapper climbs into `L` within `fuel` further steps. -/
def inReach (data : List CommentRecord) : Nat → List CommentRecord → CommentRecord → Bool
  | 0, L, c => decide (c ∈ L)
  | fuel + 1, L, c =>
      decide (c ∈ L) ||
        (!isRootRec data c && inReach data fuel L (parentRec data c))

/-- The number of records ranked strictly above `r` (an upper bound on the
unfolding depth below `r`' wrapper under the rank function `h`). -/
def mUp (data : List CommentRecord) (h : Nat → Nat) (r : CommentRecord) : Nat :=
  (data.filter (fun c => decide (h r.id < h c.id))).length

/-- The number of records ranked strictly below `c` (an upper bound on the
climb length from `c` to a root under the rank function `h`). -/
def mDown (data : List CommentRecord) (h : Nat → Nat) (c : CommentRecord) : Nat :=
  (data.filter (fun x => decide (h x.id < h c.id))).length

/-- No wrapper of `L` climbs (in one or more steps) back into `L`. -/
def INVp (data L : List CommentRecord) : Prop :=
  ∀ c ∈ L, ∀ f, ¬(isRootRec data c = false ∧
    inReach data f L (parentRec data c) = true)

theorem filter_id_eq :
    ∀ (data : List CommentRecord), (data.map CommentRecord.id).Nodup →
      ∀ c ∈ data, data.filter (fun r => r.id == c.id) = [c] := by
  intro data
  induction data with
  | nil => intro _ c hc; cases hc
  | cons d ds ih =>
    intro hnd c hc
    rw [List.map_cons, List.nodup_cons] at hnd
    rcases List.mem_cons.mp hc with hc | hc
    · rw [← hc] at hnd
      rw [← hc, List.filter_cons_of_pos (by simp)]
      have hrest : ds.filter (fun r => r.id == c.id) = [] := by
        rw [List.filter_eq_nil_iff]
        intro r hr
        simp only [beq_iff_eq]
        intro hid
        exact hnd.1 (hid ▸ List.mem_map_of_mem CommentRecord.id hr)
      rw [hrest]
    · have hne : (d.id == c.id) = false := by
        simp only [beq_eq_false_iff_ne, ne_eq]
        intro hid
        exact hnd.1 (hid ▸ List.mem_map_of_mem CommentRecord.id hc)
      rw [List.filter_cons_of_neg (by simp [hne])]
      exact ih hnd.2 c hc

theorem tableGetId_of_mem {data : List CommentRecord}
    (DI : (data.map CommentRecord.id).Nodup) {r : CommentRecord} (hr : r ∈ data)
    (dflt : CommentRecord) : tableGetId data r.id dflt = r := by
  rw [tableGetId, filter_id_eq data DI r hr]
  rfl

theorem tableGet_eq {data : List CommentRecord}
    (DI : (data.map CommentRecord.id).Nodup) {c : CommentRecord} (hc : c ∈ data) :
    tableGet data c = c :=
  tableGetId_of_mem DI hc c

theorem id_inj {data : List CommentRecord}
    (DI : (data.map CommentRecord.id).Nodup) {c d : CommentRecord}
    (hc : c ∈ data) (hd : d ∈ data) (hid : c.id = d.id) : c = d := by
  have h1 := filter_id_eq data DI c hc
  have h2 : d ∈ data.filter (fun r => r.id == c.id) :=
    List.mem_filter.mpr ⟨hd, by simp [hid]⟩
  rw [h1] at h2
  exact (List.mem_singleton.mp h2).symm

theorem attached_facts {data : List CommentRecord} {c : CommentRecord}
    (hatt : isRootRec data c = false) :
    c.parentId ≠ 0 ∧ c.parentId ≠ c.id ∧ hasId data c.parentId = true := by
  rw [isRootRec] at hatt
  simp only [Bool.or_eq_false_iff, beq_eq_false_iff_ne, ne_eq,
    Bool.not_eq_false] at hatt
  refine ⟨hatt.1.1, hatt.1.2, ?_⟩
  have := hatt.2
  simpa using this

theorem parentRec_spec {data : List CommentRecord} {c : CommentRecord}
    (hatt : isRootRec data c = false) :
    parentRec data c ∈ data ∧ (parentRec data c).id = c.parentId :=
  tableGetId_spec data c.parentId c (attached_facts hatt).2.2

theorem parentRec_of_parent {data : List CommentRecord}
    (DI : (data.map CommentRecord.id).Nodup) {r c : CommentRecord}
    (hr : r ∈ data) (hpid : c.parentId = r.id) : parentRec data c = r := by
  rw [parentRec, hpid]
  exact tableGetId_of_mem DI hr c

theorem mem_attachedTo {data : List CommentRecord} {c : CommentRecord} {i : Nat} :
    c ∈ attachedTo data i ↔
      c ∈ data ∧ isRootRec data c = false ∧ c.parentId = i := by
  rw [attachedTo, List.mem_filter]
  simp [and_assoc]

theorem filterLengthLt {α : Type} {l : List α} {p q : α → Bool}
    (himp : ∀ x ∈ l, p x = true → q x = true) {b : α} (hb : b ∈ l)
    (hqb : q b = true) (hpb : p b = false) :
    (l.filter p).length < (l.filter q).length := by
  have heq : l.filter p = (l.filter q).filter p := by
    rw [List.filter_filter]
    apply List.filter_congr
    intro x hx
    cases hpx : p x with
    | false => simp
    | true => simp [himp x hx hpx]
  rw [heq]
  rw [List.length_filter_lt_length_iff_exists]
  exact ⟨b, List.mem_filter.mpr ⟨hb, hqb⟩, by simp [hpb]⟩

theorem mUp_lt_of_attached {data : List CommentRecord} {h : Nat → Nat}
    (hrank : ∀ c ∈ data, isRootRec data c = false → h c.parentId < h c.id)
    {r c : CommentRecord} (hc : c ∈ attachedTo data r.id) :
    mUp data h c < mUp data h r := by
  obtain ⟨hcd, hatt, hpid⟩ := mem_attachedTo.mp hc
  have hlt : h r.id < h c.id := by
    have := hrank c hcd hatt
    rw [hpid] at this
    exact this
  apply filterLengthLt (b := c) (fun x _ hx => ?_) hcd (by simp [hlt]) (by simp)
  simp only [decide_eq_true_eq] at hx
  simp only [decide_eq_true_eq]
  omega

theorem mDown_lt_of_parent {data : List CommentRecord} {h : Nat → Nat}
    {c p : CommentRecord} (hp : p ∈ data) (hlt : h p.id < h c.id) :
    mDown data h p < mDown data h c := by
  apply filterLengthLt (b := p) (fun x _ hx => ?_) hp (by simp [hlt]) (by simp)
  simp only [decide_eq_true_eq] at hx
  simp only [decide_eq_true_eq]
  omega

theorem treeRecords_unfold (r : CommentRecord) (cs : List TreeNode) :
    treeRecords (TreeNode.mk r cs) = r :: cs.flatMap treeRecords := by
  rw [treeRecords, TreeNode.sub_unfold]
  simp only [List.map_cons, TreeNode.record, TreeNode.children, List.map_flatMap]
  rfl

theorem treeRecords_buildNode_succ (data : List CommentRecord) (fuel : Nat)
    (r : CommentRecord) :
    treeRecords (buildNode data (fuel + 1) r) =
      r :: (attachedTo data r.id).flatMap
        (fun c => treeRecords (buildNode data fuel (tableGet data c))) := by
  rw [buildNode, treeRecords_unfold, List.flatMap_map]

theorem mem_childrenOf {data L : List CommentRecord} {c : CommentRecord} :
    c ∈ childrenOf data L ↔ ∃ r ∈ L, c ∈ attachedTo data r.id := by
  rw [childrenOf, List.mem_flatMap]

/-- Climbing into the one-step-grown wrapper set is climbing one extra
step into the original set. -/
theorem reach_children_iff {data : List CommentRecord}
    (DI : (data.map CommentRecord.id).Nodup) {L : List CommentRecord}
    (hL : ∀ r ∈ L, r ∈ data) :
    ∀ (f : Nat) (c : CommentRecord), c ∈ data →
      (inReach data f (childrenOf data L) c = true ↔
        (isRootRec data c = false ∧
          inReach data f L (parentRec data c) = true)) := by
  intro f
  induction f with
  | zero =>
    intro c hc
    simp only [inReach, decide_eq_true_eq]
    constructor
    · intro hmem
      obtain ⟨r, hr, hcr⟩ := mem_childrenOf.mp hmem
      obtain ⟨_, hatt, hpid⟩ := mem_attachedTo.mp hcr
      refine ⟨hatt, ?_⟩
      rw [parentRec_of_parent DI (hL r hr) hpid]
      exact hr
    · rintro ⟨hatt, hpar⟩
      apply mem_childrenOf.mpr
      refine ⟨parentRec data c, hpar, ?_⟩
      exact mem_attachedTo.mpr ⟨hc, hatt, ((parentRec_spec hatt).2).symm⟩
  | succ f ih =>
    intro c hc
    simp only [inReach, Bool.or_eq_true, Bool.and_eq_true, Bool.not_eq_eq_eq_not,
      Bool.not_true, decide_eq_true_eq]
    constructor
    · rintro (hmem | ⟨hatt, hrec⟩)
      · obtain ⟨r, hr, hcr⟩ := mem_childrenOf.mp hmem
        obtain ⟨_, hatt, hpid⟩ := mem_attachedTo.mp hcr
        refine ⟨hatt, Or.inl ?_⟩
        rw [parentRec_of_parent DI (hL r hr) hpid]
        exact hr
      · have hpmem : parentRec data c ∈ data := (parentRec_spec hatt).1
        have hp := (ih (parentRec data c) hpmem).mp hrec
        exact ⟨hatt, Or.inr ⟨hp.1, hp.2⟩⟩
    · rintro ⟨hatt, hpar | ⟨hattp, hrecp⟩⟩
      · refine Or.inl (mem_childrenOf.mpr ⟨parentRec data c, hpar, ?_⟩)
        exact mem_attachedTo.mpr ⟨hc, hatt, ((parentRec_spec hatt).2).symm⟩
      · have hpmem : parentRec data c ∈ data := (parentRec_spec hatt).1
        exact Or.inr ⟨hatt, (ih (parentRec data c) hpmem).mpr ⟨hattp, hrecp⟩⟩

theorem not_reach_children_of_inv {data : List CommentRecord}
    (DI : (data.map CommentRecord.id).Nodup) {L : List CommentRecord}
    (hL : ∀ r ∈ L, r ∈ data) (hinv : INVp data L) :
    ∀ c ∈ L, ∀ f, inReach data f (childrenOf data L) c = false := by
  intro c hc f
  cases hr : inReach data f (childrenOf data L) c with
  | false => rfl
  | true =>
    have := (reach_children_iff DI hL f c (hL c hc)).mp hr
    exact absurd this (hinv c hc f)

theorem inv_childrenOf {data : List CommentRecord}
    (DI : (data.map CommentRecord.id).Nodup) {L : List CommentRecord}
    (hL : ∀ r ∈ L, r ∈ data) (hinv : INVp data L) :
    INVp data (childrenOf data L) := by
  rintro c hc f ⟨hatt, hrec⟩
  obtain ⟨r, hr, hcr⟩ := mem_childrenOf.mp hc
  obtain ⟨hcd, _, hpid⟩ := mem_attachedTo.mp hcr
  have hpmem : parentRec data c ∈ data := (parentRec_spec hatt).1
  have hp := (reach_children_iff DI hL f (parentRec data c) hpmem).mp hrec
  have hpr : parentRec data c = r := parentRec_of_parent DI (hL r hr) hpid
  rw [hpr] at hp
  exact hinv r hr f hp

theorem childrenOf_subset {data L : List CommentRecord}
    (_ : ∀ r ∈ L, r ∈ data) : ∀ c ∈ childrenOf data L, c ∈ data := by
  intro c hc
  obtain ⟨r, _, hcr⟩ := mem_childrenOf.mp hc
  exact (mem_attachedTo.mp hcr).1

theorem childrenOf_nodup {data : List CommentRecord}
    (DI : (data.map CommentRecord.id).Nodup) {L : List CommentRecord}
    (hLnd : (L.map CommentRecord.id).Nodup) :
    ((childrenOf data L).map CommentRecord.id).Nodup := by
  rw [childrenOf, List.map_flatMap]
  rw [List.nodup_flatMap]
  constructor
  · intro r _
    have hsub : (attachedTo data r.id).Sublist data := List.filter_sublist data
    exact (hsub.map CommentRecord.id).nodup DI
  · have hpw : L.Pairwise (fun a b => a.id ≠ b.id) :=
      List.pairwise_map.mp hLnd
    apply hpw.imp
    intro a b hab
    intro x hxa hxb
    obtain ⟨c, hc, hcx⟩ := List.mem_map.mp hxa
    obtain ⟨d, hd, hdx⟩ := List.mem_map.mp hxb
    obtain ⟨hcd, _, hcp⟩ := mem_attachedTo.mp hc
    obtain ⟨hdd, _, hdp⟩ := mem_attachedTo.mp hd
    have hcdid : c.id = d.id := by rw [hcx, hdx]
    have hcd2 : c = d := id_inj DI hcd hdd hcdid
    apply hab
    rw [← hcp, ← hdp, hcd2]

theorem flatMapConsPerm {α β : Type} (g : α → β) (f : α → List β) :
    ∀ L : List α, (L.flatMap (fun r => g r :: f r)).Perm (L.map g ++ L.flatMap f) := by
  intro L
  induction L with
  | nil => simp
  | cons r L ih =>
    simp only [List.flatMap_cons, List.map_cons, List.cons_append]
    refine List.Perm.cons (g r) ?_
    have h1 : (f r ++ L.flatMap (fun r => g r :: f r)).Perm
        (f r ++ (L.map g ++ L.flatMap f)) := ih.append_left (f r)
    have h2 : (f r ++ (L.map g ++ L.flatMap f)) =
        (f r ++ L.map g) ++ L.flatMap f := by rw [List.append_assoc]
    have h3 : ((f r ++ L.map g) ++ L.flatMap f).Perm
        ((L.map g ++ f r) ++ L.flatMap f) :=
      (List.perm_append_comm).append_right (L.flatMap f)
    have h4 : (L.map g ++ f r) ++ L.flatMap f =
        L.map g ++ (f r ++ L.flatMap f) := by rw [List.append_assoc]
    apply h1.trans
    rw [h2, ← h4]
    exact h3

theorem disjointFilterPerm {α : Type} {p q s : α → Bool} :
    ∀ {l : List α}, (∀ x ∈ l, (p x = true ↔ (q x = true ∨ s x = true))) →
      (∀ x ∈ l, ¬(q x = true ∧ s x = true)) →
      (l.filter p).Perm (l.filter q ++ l.filter s) := by
  intro l
  induction l with
  | nil => intro _ _; simp
  | cons x xs ih =>
    intro hiff hdis
    have hx := hiff x (List.mem_cons_self x xs)
    have hdx := hdis x (List.mem_cons_self x xs)
    have ihx := ih (fun a ha => hiff a (List.mem_cons_of_mem x ha))
      (fun a ha => hdis a (List.mem_cons_of_mem x ha))
    cases hq : q x with
    | true =>
      have hs : s x = false := by
        cases hs : s x with
        | false => rfl
        | true => exact absurd ⟨hq, hs⟩ hdx
      have hp : p x = true := hx.mpr (Or.inl hq)
      rw [List.filter_cons_of_pos hp, List.filter_cons_of_pos hq,
        List.filter_cons_of_neg (by simp [hs])]
      simpa using ihx.cons x
    | false =>
      cases hs : s x with
      | true =>
        have hp : p x = true := hx.mpr (Or.inr hs)
        rw [List.filter_cons_of_pos hp, List.filter_cons_of_neg (by simp [hq]),
          List.filter_cons_of_pos hs]
        exact (ihx.cons x).trans List.perm_middle.symm
      | false =>
        have hp : p x = false := by
          cases hpx : p x with
          | false => rfl
          | true =>
            rcases hx.mp hpx with hc | hc
            · rw [hq] at hc; cases hc
            · rw [hs] at hc; cases hc
        rw [List.filter_cons_of_neg (by simp [hp]),
          List.filter_cons_of_neg (by simp [hq]),
          List.filter_cons_of_neg (by simp [hs])]
        exact ihx

theorem memNodupPerm {α : Type} [DecidableEq α] {l L : List α}
    (hl : l.Nodup) (hLnd : L.Nodup) (hsub : ∀ a ∈ L, a ∈ l) :
    (l.filter (fun x => decide (x ∈ L))).Perm L := by
  rw [List.perm_iff_count]
  intro a
  by_cases ha : a ∈ L
  · have h1 : (l.filter (fun x => decide (x ∈ L))).count a = 1 := by
      apply List.count_eq_one_of_mem (hl.filter _)
      exact List.mem_filter.mpr ⟨hsub a ha, by simp [ha]⟩
    rw [h1, List.count_eq_one_of_mem hLnd ha]
  · have h1 : (l.filter (fun x => decide (x ∈ L))).count a = 0 := by
      apply List.count_eq_zero_of_not_mem
      intro hmem
      exact ha (by simpa using (List.mem_filter.mp hmem).2)
    rw [h1, List.count_eq_zero_of_not_mem ha]

/-- Layered growth of the forest below an antichain of wrappers `L`: the
records of all trees built from `L` are, up to permutation, exactly the
records whose parent-link climb reaches `L`. -/
theorem buildPerm_aux (data : List CommentRecord) (h : Nat → Nat)
    (DI : (data.map CommentRecord.id).Nodup)
    (hrank : ∀ c ∈ data, isRootRec data c = false → h c.parentId < h c.id) :
    ∀ (fuel : Nat) (L : List CommentRecord), (∀ r ∈ L, r ∈ data) →
      (L.map CommentRecord.id).Nodup → INVp data L →
      (∀ r ∈ L, mUp data h r < fuel) →
      (L.flatMap (fun r => treeRecords (buildNode data fuel r))).Perm
        (data.filter (fun c => inReach data fuel L c)) := by
  intro fuel
  induction fuel with
  | zero =>
    intro L _ _ _ hm
    have hnil : L = [] := by
      cases L with
      | nil => rfl
      | cons r rs => exact absurd (hm r (List.mem_cons_self r rs)) (by omega)
    subst hnil
    simp [inReach]
  | succ f ih =>
    intro L hL hLnd hinv hm
    have hLrw : L.flatMap (fun r => treeRecords (buildNode data (f + 1) r)) =
        L.flatMap (fun r => r :: (attachedTo data r.id).flatMap
          (fun c => treeRecords (buildNode data f c))) := by
      apply listFlatMapCongr
      intro r _
      rw [treeRecords_buildNode_succ]
      congr 1
      apply listFlatMapCongr
      intro c hc
      rw [tableGet_eq DI (mem_attachedTo.mp hc).1]
    have hmapid : L.map (fun r => r) = L := by simp
    have hP1 := flatMapConsPerm (fun r => r)
      (fun r => (attachedTo data r.id).flatMap
        (fun c => treeRecords (buildNode data f c))) L
    rw [hmapid] at hP1
    have hassoc : L.flatMap (fun r => (attachedTo data r.id).flatMap
          (fun c => treeRecords (buildNode data f c))) =
        (childrenOf data L).flatMap
          (fun c => treeRecords (buildNode data f c)) := by
      rw [childrenOf, List.flatMap_assoc]
    rw [hassoc] at hP1
    have hchL : ∀ c ∈ childrenOf data L, c ∈ data := childrenOf_subset hL
    have hchnd := childrenOf_nodup DI hLnd
    have hchinv := inv_childrenOf DI hL hinv
    have hchm : ∀ c ∈ childrenOf data L, mUp data h c < f := by
      intro c hc
      obtain ⟨r, hr, hcr⟩ := mem_childrenOf.mp hc
      have h1 := mUp_lt_of_attached hrank hcr
      have h2 := hm r hr
      omega
    have hIH := ih (childrenOf data L) hchL hchnd hchinv hchm
    have hsplit : (data.filter (fun c => inReach data (f + 1) L c)).Perm
        (data.filter (fun c => decide (c ∈ L)) ++
          data.filter (fun c => inReach data f (childrenOf data L) c)) := by
      apply disjointFilterPerm
      · intro x hx
        simp only [inReach, Bool.or_eq_true, Bool.and_eq_true,
          decide_eq_true_eq, Bool.not_eq_eq_eq_not, Bool.not_true]
        constructor
        · rintro (hmem | ⟨hatt, hrec⟩)
          · exact Or.inl (by simp [hmem])
          · exact Or.inr ((reach_children_iff DI hL f x hx).mpr ⟨hatt, hrec⟩)
        · rintro (hmem | hrec)
          · exact Or.inl (by simpa using hmem)
          · have hr := (reach_children_iff DI hL f x hx).mp hrec
            exact Or.inr ⟨hr.1, hr.2⟩
      · rintro x _ ⟨hq, hs⟩
        have hxL : x ∈ L := by simpa using hq
        have hfalse := not_reach_children_of_inv DI hL hinv x hxL f
        rw [hfalse] at hs
        cases hs
    have hmemperm : (data.filter (fun c => decide (c ∈ L))).Perm L :=
      memNodupPerm (List.Nodup.of_map CommentRecord.id DI)
        (List.Nodup.of_map CommentRecord.id hLnd) hL
    rw [hLrw]
    exact (hP1.trans ((hIH.append_left L).trans
      ((hmemperm.symm.append_right _).trans hsplit.symm)))

theorem reach_roots_aux (data : List CommentRecord) (h : Nat → Nat)
    (hrank : ∀ c ∈ data, isRootRec data c = false → h c.parentId < h c.id) :
    ∀ (k : Nat) (c : CommentRecord), c ∈ data → mDown data h c ≤ k →
      inReach data k (data.filter (isRootRec data)) c = true := by
  intro k
  induction k with
  | zero =>
    intro c hc hm
    cases hroot : isRootRec data c with
    | true =>
      simp only [inReach, decide_eq_true_eq]
      exact List.mem_filter.mpr ⟨hc, hroot⟩
    | false =>
      have hp := parentRec_spec hroot
      have hlt : h (parentRec data c).id < h c.id := by
        rw [hp.2]
        exact hrank c hc hroot
      have hpos : 0 < mDown data h c := by
        have hmem : parentRec data c ∈
            data.filter (fun x => decide (h x.id < h c.id)) :=
          List.mem_filter.mpr ⟨hp.1, by simp [hlt]⟩
        rw [mDown]
        exact List.length_pos.mpr (List.ne_nil_of_mem hmem)
      omega
  | succ k ih =>
    intro c hc hm
    cases hroot : isRootRec data c with
    | true =>
      simp only [inReach, Bool.or_eq_true, decide_eq_true_eq]
      exact Or.inl (List.mem_filter.mpr ⟨hc, hroot⟩)
    | false =>
      have hp := parentRec_spec hroot
      have hlt : h (parentRec data c).id < h c.id := by
        rw [hp.2]
        exact hrank c hc hroot
      have hmlt := mDown_lt_of_parent hp.1 hlt
      have hrec := ih (parentRec data c) hp.1 (by omega)
      simp only [inReach, Bool.or_eq_true, Bool.and_eq_true,
        Bool.not_eq_eq_eq_not, Bool.not_true]
      exact Or.inr ⟨hroot, hrec⟩

theorem buildNode_stable (data : List CommentRecord) (h : Nat → Nat)
    (DI : (data.map CommentRecord.id).Nodup)
    (hrank : ∀ c ∈ data, isRootRec data c = false → h c.parentId < h c.id) :
    ∀ (f1 f2 : Nat) (r : CommentRecord), r ∈ data →
      mUp data h r < f1 → mUp data h r < f2 →
      buildNode data f1 r = buildNode data f2 r := by
  intro f1
  induction f1 with
  | zero => intro f2 r _ hm1 _; omega
  | succ a ih =>
    intro f2 r hr hm1 hm2
    cases f2 with
    | zero => omega
    | succ b =>
      simp only [buildNode, TreeNode.mk.injEq, true_and]
      apply List.map_congr_left
      intro c hc
      have hcd : c ∈ data := (mem_attachedTo.mp hc).1
      rw [tableGet_eq DI hcd]
      have hlt := mUp_lt_of_attached hrank hc
      exact ih b c hcd (by omega) (by omega)

theorem buildNode_sub_char (data : List CommentRecord) (h : Nat → Nat)
    (DI : (data.map CommentRecord.id).Nodup)
    (hrank : ∀ c ∈ data, isRootRec data c = false → h c.parentId < h c.id) :
    ∀ (fuel : Nat) (r : CommentRecord), r ∈ data → mUp data h r < fuel →
      ∀ t ∈ (buildNode data fuel r).sub,
        ∃ q ∈ data, mUp data h q < fuel ∧
          t = buildNode data (mUp data h q + 1) q := by
  intro fuel
  induction fuel with
  | zero => intro r _ hm; omega
  | succ f ih =>
    intro r hr hm t ht
    rw [TreeNode.sub_unfold] at ht
    rcases List.mem_cons.mp ht with ht | ht
    · refine ⟨r, hr, hm, ?_⟩
      rw [ht]
      exact buildNode_stable data h DI hrank (f + 1) (mUp data h r + 1) r hr hm
        (by omega)
    · have hch : (buildNode data (f + 1) r).children =
          (attachedTo data r.id).map (fun c => buildNode data f (tableGet data c)) := by
        simp only [buildNode, TreeNode.children]
      rw [hch] at ht
      obtain ⟨ch, hch2, htch⟩ := List.mem_flatMap.mp ht
      obtain ⟨c, hc, hceq⟩ := List.mem_map.mp hch2
      have hcd : c ∈ data := (mem_attachedTo.mp hc).1
      rw [← hceq, tableGet_eq DI hcd] at htch
      have hlt := mUp_lt_of_attached hrank hc
      obtain ⟨q, hq, hqm, hqeq⟩ := ih c hcd (by omega) t htch
      exact ⟨q, hq, by omega, hqeq⟩

/-- C5 (amended): for a flat input with pairwise-distinct ids whose parent
links are acyclic (witnessed by a rank function `h` that strictly drops
from every attached record to its parent), the output forest carries
exactly one node per input record — the flattened records are a
permutation of the input — and the children of every node of the forest
are exactly the records attached to it, in input order (`attachedTo` is an
input-order filter of `data`).  Without acyclicity the claim fails: a
parent cycle is unreachable from every root and its records are silently
dropped, see the counterexample. -/
theorem buildTreeNoLossOrderedChildren (data : List CommentRecord)
    (h : Nat → Nat) (DI : (data.map CommentRecord.id).Nodup)
    (hrank : ∀ c ∈ data, isRootRec data c = false → h c.parentId < h c.id) :
    ((convertToTree data).flatMap treeRecords).Perm data ∧
    (∀ rt ∈ convertToTree data, ∀ t ∈ rt.sub,
      t.children.map TreeNode.record = attachedTo data t.record.id) := by
  have hrootsub : ∀ r ∈ data.filter (isRootRec data), r ∈ data :=
    fun r hr => (List.mem_filter.mp hr).1
  have hconv : convertToTree data =
      (data.filter (isRootRec data)).map
        (fun r => buildNode data data.length r) := by
    rw [convertToTree]
    apply List.map_congr_left
    intro r hr
    rw [tableGet_eq DI (hrootsub r hr)]
  have hmroots : ∀ r ∈ data.filter (isRootRec data),
      mUp data h r < data.length := by
    intro r hr
    rw [mUp]
    rw [List.length_filter_lt_length_iff_exists]
    exact ⟨r, hrootsub r hr, by simp⟩
  constructor
  · rw [hconv, List.flatMap_map]
    have hG := buildPerm_aux data h DI hrank data.length
      (data.filter (isRootRec data)) hrootsub
      (((List.filter_sublist data).map CommentRecord.id).nodup DI)
      (by
        rintro c hc f ⟨hfalse, _⟩
        have htrue : isRootRec data c = true := (List.mem_filter.mp hc).2
        rw [htrue] at hfalse
        cases hfalse)
      hmroots
    refine hG.trans ?_
    have hall : ∀ c ∈ data,
        inReach data data.length (data.filter (isRootRec data)) c = true := by
      intro c hc
      apply reach_roots_aux data h hrank data.length c hc
      rw [mDown]
      exact List.length_filter_le _ data
    rw [List.filter_eq_self.mpr hall]
  · intro rt hrt t ht
    rw [hconv] at hrt
    obtain ⟨r0, hr0, hr0eq⟩ := List.mem_map.mp hrt
    rw [← hr0eq] at ht
    obtain ⟨q, hq, _, hqeq⟩ := buildNode_sub_char data h DI hrank data.length r0
      (hrootsub r0 hr0) (hmroots r0 hr0) t ht
    subst hqeq
    have hrec : (buildNode data (mUp data h q + 1) q).record = q :=
      buildNode_record data _ q
    have hch : (buildNode data (mUp data h q + 1) q).children =
        (attachedTo data q.id).map
          (fun c => buildNode data (mUp data h q) (tableGet data c)) := by
      simp only [buildNode, TreeNode.children]
    rw [hrec, hch, List.map_map]
    have hpt : ∀ c ∈ attachedTo data q.id,
        (TreeNode.record ∘ fun c => buildNode data (mUp data h q) (tableGet data c)) c
          = c := by
      intro c hc
      simp only [Function.comp]
      rw [buildNode_record, tableGet_eq DI (mem_attachedTo.mp hc).1]
    rw [List.map_congr_left hpt]
    simp

/-- Witness for C5: the spec's worked example (§8), ranked by the identity
function: roots `[1, 3, 4]`, node 1 has the single child 2; no record is
lost or duplicated and children are in input order. -/
theorem buildTreeNoLossOrderedChildrenW :
    (((convertToTree [⟨1, 0, 10⟩, ⟨2, 1, 20⟩, ⟨3, 0, 30⟩, ⟨4, 99, 40⟩]).flatMap
        treeRecords).Perm [⟨1, 0, 10⟩, ⟨2, 1, 20⟩, ⟨3, 0, 30⟩, ⟨4, 99, 40⟩]) ∧
    (∀ rt ∈ convertToTree [⟨1, 0, 10⟩, ⟨2, 1, 20⟩, ⟨3, 0, 30⟩, ⟨4, 99, 40⟩],
      ∀ t ∈ rt.sub, t.children.map TreeNode.record =
        attachedTo [⟨1, 0, 10⟩, ⟨2, 1, 20⟩, ⟨3, 0, 30⟩, ⟨4, 99, 40⟩] t.record.id) :=
  buildTreeNoLossOrderedChildren [⟨1, 0, 10⟩, ⟨2, 1, 20⟩, ⟨3, 0, 30⟩, ⟨4, 99, 40⟩]
    (fun i => i) (by decide) (by decide)

/-- Counterexample to C5 as stated: the two records `{id 1, parent 2}` and
`{id 2, parent 1}` have distinct ids, yet each is attached to the other's
wrapper, the root list comes out empty, and both records are lost — the
output does not contain one node per input record. -/
theorem buildTreeNoLossOrderedChildrenCex :
    (([(⟨1, 2, 0⟩ : CommentRecord), ⟨2, 1, 0⟩].map CommentRecord.id).Nodup) ∧
    convertToTree [⟨1, 2, 0⟩, ⟨2, 1, 0⟩] = [] ∧
    ¬ (((convertToTree [⟨1, 2, 0⟩, ⟨2, 1, 0⟩]).flatMap treeRecords).Perm
        [⟨1, 2, 0⟩, ⟨2, 1, 0⟩]) := by
  refine ⟨by decide, by decide, ?_⟩
  intro hp
  have hl := hp.length_eq
  revert hl
  decide
